import Mathlib

/-!
Shallow embedding of the coinplex-sdk core: the signature module
(calculateSignature, prepareSignedPayload, verifySignature), the response
decryption pipeline (decryptRSAResponse, processApiResponse), the token
search of the authentication manager, the retry loop of the request dispatcher
and statistics, and the quantify scheduler (scheduleExecutions,
getExecutionStats).  JavaScript objects are modelled as association lists
with distinct keys (insertion order = list order), JavaScript scalar
values as an explicit value type with the truthiness rules of the source,
and machine-word arithmetic as Nat with explicit reduction modulo 2^32.
External cryptographic primitives that live outside the repository
(RSA from jsencrypt, AES from crypto-js) are passed in as function parameters;
HMAC-SHA256, which the source takes from the node crypto module with fixed
algorithm "sha256", is implemented concretely.
-/

set_option maxRecDepth 400000

namespace Coinplex

/-- JavaScript scalar values as they occur in request parameter maps:
strings, (integral) numbers, null and undefined. -/
inductive SVal where
  | vstr (s : String)
  | vnum (n : Int)
  | vnull
  | vundefined
deriving DecidableEq, Repr

/-- JavaScript truthiness of a scalar value: empty string, 0, null and
undefined are falsy. -/
def svTruthy : SVal → Bool
  | .vstr s => s ≠ ""
  | .vnum n => n ≠ 0
  | .vnull => false
  | .vundefined => false

/-- JavaScript template-literal stringification of a scalar value, as used
by the backtick interpolation in calculateSignature. -/
def svToString : SVal → String
  | .vstr s => s
  | .vnum n => toString n
  | .vnull => "null"
  | .vundefined => "undefined"

/-- A JavaScript object holding scalar values: an association list in
insertion order.  Real objects never repeat a key; theorems carry that as
a Nodup hypothesis on the key list. -/
abbrev SObj := List (String × SVal)

/-- Property lookup on an object. -/
def olookup : SObj → String → Option SVal
  | [], _ => none
  | (k, v) :: rest, key => if key = k then some v else olookup rest key

/-- Property lookup with the JavaScript undefined default. -/
def olookupD (o : SObj) (key : String) : SVal :=
  (olookup o key).getD .vundefined

/-- Property assignment: overwrite in place when the key exists, append
otherwise (JavaScript insertion-order semantics). -/
def oset : SObj → String → SVal → SObj
  | [], k, v => [(k, v)]
  | (k', v') :: rest, k, v =>
    if k = k' then (k, v) :: rest else (k', v') :: oset rest k v

/-- Property deletion. -/
def oerase : SObj → String → SObj
  | [], _ => []
  | (k', v') :: rest, k =>
    if k = k' then rest else (k', v') :: oerase rest k

/-- Keys of an object, in insertion order. -/
def okeys (o : SObj) : List String := o.map Prod.fst

/-! ### UTF-8 and SHA-256 / HMAC-SHA256

The source computes signatures with the node call
crypto.createHmac("sha256", secret).update(base).digest("hex").
We implement that primitive concretely over byte lists. -/

/-- UTF-8 encoding of one character. -/
def utf8Char (c : Char) : List Nat :=
  let n := c.toNat
  if n < 128 then [n]
  else if n < 2048 then [192 + n / 64, 128 + n % 64]
  else if n < 65536 then [224 + n / 4096, 128 + (n / 64) % 64, 128 + n % 64]
  else [240 + n / 262144, 128 + (n / 4096) % 64, 128 + (n / 64) % 64, 128 + n % 64]

/-- UTF-8 encoding of a string as a byte list. -/
def utf8Bytes (s : String) : List Nat :=
  s.data.foldr (fun c acc => utf8Char c ++ acc) []

/-- Reduce to a 32-bit word. -/
def w32 (n : Nat) : Nat := n % 4294967296

/-- 32-bit right rotation (argument assumed below 2^32). -/
def rotr (x k : Nat) : Nat := w32 ((x >>> k) ||| (x <<< (32 - k)))

/-- 32-bit complement. -/
def wnot (x : Nat) : Nat := Nat.xor x 4294967295

/-- SHA-256 big sigma 0. -/
def bsig0 (x : Nat) : Nat := Nat.xor (Nat.xor (rotr x 2) (rotr x 13)) (rotr x 22)

/-- SHA-256 big sigma 1. -/
def bsig1 (x : Nat) : Nat := Nat.xor (Nat.xor (rotr x 6) (rotr x 11)) (rotr x 25)

/-- SHA-256 small sigma 0. -/
def ssig0 (x : Nat) : Nat := Nat.xor (Nat.xor (rotr x 7) (rotr x 18)) (x >>> 3)

/-- SHA-256 small sigma 1. -/
def ssig1 (x : Nat) : Nat := Nat.xor (Nat.xor (rotr x 17) (rotr x 19)) (x >>> 10)

/-- SHA-256 choose. -/
def chF (x y z : Nat) : Nat := Nat.xor (Nat.land x y) (Nat.land (wnot x) z)

/-- SHA-256 majority. -/
def majF (x y z : Nat) : Nat :=
  Nat.xor (Nat.xor (Nat.land x y) (Nat.land x z)) (Nat.land y z)

/-- SHA-256 round constants. -/
def sha256K : List Nat :=
  [1116352408, 1899447441, 3049323471, 3921009573, 961987163,
   1508970993, 2453635748, 2870763221, 3624381080, 310598401,
   607225278, 1426881987, 1925078388, 2162078206, 2614888103,
   3248222580, 3835390401, 4022224774, 264347078, 604807628,
   770255983, 1249150122, 1555081692, 1996064986, 2554220882,
   2821834349, 2952996808, 3210313671, 3336571891, 3584528711,
   113926993, 338241895, 666307205, 773529912, 1294757372,
   1396182291, 1695183700, 1986661051, 2177026350, 2456956037,
   2730485921, 2820302411, 3259730800, 3345764771, 3516065817,
   3600352804, 4094571909, 275423344, 430227734, 506948616,
   659060556, 883997877, 958139571, 1322822218, 1537002063,
   1747873779, 1955562222, 2024104815, 2227730452, 2361852424,
   2428436474, 2756734187, 3204031479, 3329325298]

/-- SHA-256 working state: eight 32-bit words. -/
structure Hash8 where
  a : Nat
  b : Nat
  c : Nat
  d : Nat
  e : Nat
  f : Nat
  g : Nat
  h : Nat
deriving DecidableEq, Repr

/-- SHA-256 initial hash value. -/
def sha256Init : Hash8 :=
  ⟨1779033703, 3144134277, 1013904242, 2773480762,
   1359893119, 2600822924, 528734635, 1541459225⟩

/-- Split a list into consecutive chunks of the given size (fuel-driven so
that the definition reduces in the kernel). -/
def chunksGo (size : Nat) : Nat → List α → List (List α)
  | 0, _ => []
  | _, [] => []
  | fuel + 1, l => l.take size :: chunksGo size fuel (l.drop size)

/-- Split a list into consecutive chunks of the given size; the last chunk
may be shorter. -/
def chunksOf (size : Nat) (l : List α) : List (List α) :=
  chunksGo size l.length l

/-- Big-endian bytes of a 64-bit length field. -/
def be64 (n : Nat) : List Nat :=
  [(n >>> 56) % 256, (n >>> 48) % 256, (n >>> 40) % 256, (n >>> 32) % 256,
   (n >>> 24) % 256, (n >>> 16) % 256, (n >>> 8) % 256, n % 256]

/-- Big-endian bytes of a 32-bit word. -/
def be32 (n : Nat) : List Nat :=
  [(n >>> 24) % 256, (n >>> 16) % 256, (n >>> 8) % 256, n % 256]

/-- SHA-256 message padding: 0x80, zeros to 56 mod 64, then the bit length
as 8 big-endian bytes. -/
def padMessage (msg : List Nat) : List Nat :=
  let padZeros := (119 - msg.length % 64) % 64
  msg ++ 128 :: List.replicate padZeros 0 ++ be64 (8 * msg.length)

/-- Big-endian 32-bit word from four bytes. -/
def bytesToWord (bs : List Nat) : Nat := bs.foldl (fun a x => a * 256 + x) 0

/-- Extend the sixteen message words to the 64-entry SHA-256 schedule. -/
def extendW (w16 : Array Nat) : Array Nat :=
  (List.range 48).foldl
    (fun w i =>
      w.push (w32 (ssig1 (w.getD (i + 14) 0) + w.getD (i + 9) 0 +
                   ssig0 (w.getD (i + 1) 0) + w.getD i 0)))
    w16

/-- One SHA-256 round with combined constant-plus-schedule word. -/
def sha256Round (s : Hash8) (k w : Nat) : Hash8 :=
  let t1 := s.h + bsig1 s.e + chF s.e s.f s.g + k + w
  let t2 := bsig0 s.a + majF s.a s.b s.c
  ⟨w32 (t1 + t2), s.a, s.b, s.c, w32 (s.d + t1), s.e, s.f, s.g⟩

/-- SHA-256 compression of one 64-byte block. -/
def compressBlock (h0 : Hash8) (block : List Nat) : Hash8 :=
  let ws := (extendW ((chunksOf 4 block).map bytesToWord).toArray).toList
  let s := (List.zip sha256K ws).foldl (fun s kw => sha256Round s kw.1 kw.2) h0
  ⟨w32 (h0.a + s.a), w32 (h0.b + s.b), w32 (h0.c + s.c), w32 (h0.d + s.d),
   w32 (h0.e + s.e), w32 (h0.f + s.f), w32 (h0.g + s.g), w32 (h0.h + s.h)⟩

/-- SHA-256 of a byte list, as a byte list of length 32. -/
def sha256 (msg : List Nat) : List Nat :=
  let hh := (chunksOf 64 (padMessage msg)).foldl compressBlock sha256Init
  be32 hh.a ++ be32 hh.b ++ be32 hh.c ++ be32 hh.d ++
  be32 hh.e ++ be32 hh.f ++ be32 hh.g ++ be32 hh.h

/-- Lowercase hex digit. -/
def hexDigitChar (n : Nat) : Char :=
  if n < 10 then Char.ofNat (48 + n) else Char.ofNat (87 + n)

/-- Lowercase hex rendering of a byte list. -/
def bytesToHex (bs : List Nat) : String :=
  ⟨bs.foldr (fun b acc => hexDigitChar ((b / 16) % 16) :: hexDigitChar (b % 16) :: acc) []⟩

/-- HMAC-SHA256 over byte lists (block size 64). -/
def hmacSHA256 (key msg : List Nat) : List Nat :=
  let k0 := if 64 < key.length then sha256 key else key
  let kp := k0 ++ List.replicate (64 - k0.length) 0
  sha256 (kp.map (Nat.xor 92) ++ sha256 (kp.map (Nat.xor 54) ++ msg))

/-- HMAC-SHA256 of a string message under a string secret, lowercase hex:
the node primitive used by the signature module. -/
def hmacSHA256Hex (secret message : String) : String :=
  bytesToHex (hmacSHA256 (utf8Bytes secret) (utf8Bytes message))

/-! ### Lexicographic string comparison

JavaScript Array.prototype.sort with the default comparator sorts strings
lexicographically by their character sequences.  The core Lean String
order is backed by non-reducing iterator primitives, so we define the
comparison directly on the character lists. -/

/-- Lexicographic comparison of character lists. -/
def charsLe : List Char → List Char → Bool
  | [], _ => true
  | _ :: _, [] => false
  | a :: as, b :: bs =>
    if a < b then true
    else if b < a then false
    else charsLe as bs

/-- Lexicographic order on strings as used by the key sort. -/
def strLeP (a b : String) : Prop := charsLe a.data b.data = true

instance : DecidableRel strLeP := fun a b => by unfold strLeP; infer_instance

theorem charsLe_total : ∀ (x y : List Char), charsLe x y = true ∨ charsLe y x = true
  | [], _ => by left; rfl
  | _ :: _, [] => by right; rfl
  | a :: as, b :: bs => by
    rcases lt_trichotomy a b with h | h | h
    · left; simp [charsLe, h]
    · subst h
      rcases charsLe_total as bs with ih | ih
      · left; simp [charsLe, ih]
      · right; simp [charsLe, ih]
    · right; simp [charsLe, h]

theorem charsLe_trans : ∀ (x y z : List Char), charsLe x y = true → charsLe y z = true →
    charsLe x z = true
  | [], _, _, _, _ => rfl
  | _ :: _, [], _, h1, _ => by simp [charsLe] at h1
  | _ :: _, _ :: _, [], _, h2 => by simp [charsLe] at h2
  | a :: as, b :: bs, c :: cs, h1, h2 => by
    rcases lt_trichotomy a b with hab | hab | hab
    · rcases lt_trichotomy b c with hbc | hbc | hbc
      · simp [charsLe, lt_trans hab hbc]
      · subst hbc; simp [charsLe, hab]
      · simp [charsLe, hbc, lt_asymm hbc] at h2
    · subst hab
      rcases lt_trichotomy a c with hac | hac | hac
      · simp [charsLe, hac]
      · subst hac
        simp [charsLe, lt_irrefl] at h1 h2 ⊢
        exact charsLe_trans as bs cs h1 h2
      · simp [charsLe, hac, lt_asymm hac] at h2
    · simp [charsLe, hab, lt_asymm hab] at h1

theorem charsLe_antisymm : ∀ (x y : List Char), charsLe x y = true → charsLe y x = true → x = y
  | [], [], _, _ => rfl
  | [], _ :: _, _, h2 => by simp [charsLe] at h2
  | _ :: _, [], h1, _ => by simp [charsLe] at h1
  | a :: as, b :: bs, h1, h2 => by
    rcases lt_trichotomy a b with hab | hab | hab
    · simp [charsLe, hab, lt_asymm hab] at h2
    · subst hab
      simp [charsLe, lt_irrefl] at h1 h2
      rw [charsLe_antisymm as bs h1 h2]
    · simp [charsLe, hab, lt_asymm hab] at h1

instance : IsTotal String strLeP := ⟨fun a b => charsLe_total a.data b.data⟩
instance : IsTrans String strLeP := ⟨fun a b c => charsLe_trans a.data b.data c.data⟩
instance : IsAntisymm String strLeP :=
  ⟨fun a b h1 h2 => by
    have := charsLe_antisymm a.data b.data h1 h2
    cases a; cases b; exact congrArg String.mk this⟩

/-! ### Signature module (src/core/signature.js) -/

/-- The canonical signature base string of calculateSignature: keys sorted
lexicographically (JavaScript Array.prototype.sort on strings), joined as
key=value pairs with ampersand separators and no trailing separator. -/
def signatureBase (data : SObj) : String :=
  String.intercalate "&"
    (((okeys data).insertionSort strLeP).map (fun k => k ++ "=" ++ svToString (olookupD data k)))

/-- calculateSignature: HMAC-SHA256 lowercase hex digest of the canonical
base string under the secret. -/
def calculateSignature (data : SObj) (secret : String) : String :=
  hmacSHA256Hex secret (signatureBase data)

/-- Set a key when its current value is falsy or the key is absent
(the JavaScript pattern if not payload.k then payload.k = v). -/
def osetIfFalsy (o : SObj) (k : String) (v : SVal) : SObj :=
  if svTruthy (olookupD o k) then o else oset o k v

/-- A value is stripped by prepareSignedPayload when it is strictly equal
to undefined, null or the empty string. -/
def isStrippedVal (v : SVal) : Bool :=
  v = SVal.vundefined ∨ v = SVal.vnull ∨ v = SVal.vstr ""

/-- The payload of prepareSignedPayload just before the signature is
attached: timestamp defaulted to the current epoch millis when falsy,
apiKey defaulted when falsy, then empty/null/undefined values removed. -/
def preparedFields (customParams : SObj) (apiKey : String) (now : Int) : SObj :=
  let p1 := osetIfFalsy customParams "timestamp" (.vnum now)
  let p2 := osetIfFalsy p1 "apiKey" (.vstr apiKey)
  p2.filter (fun kv => ¬ isStrippedVal kv.2)

/-- prepareSignedPayload: default timestamp and apiKey, strip empty
values, then compute the signature over the result and attach it as the
sign property.  The nondeterministic new Date().getTime() is passed in as
the parameter now. -/
def prepareSignedPayload (customParams : SObj) (apiKey apiSecret : String) (now : Int) : SObj :=
  let p := preparedFields customParams apiKey now
  oset p "sign" (.vstr (calculateSignature p apiSecret))

/-- verifySignature: false when the sign property is falsy or absent,
otherwise strict equality between the received sign value and the
signature recomputed over the payload without its sign property. -/
def verifySignature (payload : SObj) (secret : String) : Bool :=
  match olookup payload "sign" with
  | none => false
  | some sv =>
    if svTruthy sv then
      sv = SVal.vstr (calculateSignature (oerase payload "sign") secret)
    else false

/-! ### Lemmas about object lookup and permutation -/

theorem olookup_eq_some_of_mem {l : SObj} {k : String} {v : SVal}
    (hnd : (okeys l).Nodup) (hm : (k, v) ∈ l) : olookup l k = some v := by
  induction l with
  | nil => cases hm
  | cons hd tl ih =>
    obtain ⟨k', v'⟩ := hd
    have hnd' : k' ∉ okeys tl ∧ (okeys tl).Nodup := by
      simpa [okeys] using hnd
    rcases List.mem_cons.mp hm with heq | htl
    · cases heq
      simp [olookup]
    · have hk : k ≠ k' := by
        intro h
        subst h
        exact hnd'.1 (List.mem_map_of_mem Prod.fst htl)
      simp [olookup, hk]
      exact ih hnd'.2 htl

theorem olookupD_perm_eq {m1 m2 : SObj} {k : String}
    (hnd : (okeys m1).Nodup) (hp : m1.Perm m2) (hk : k ∈ okeys m1) :
    olookupD m1 k = olookupD m2 k := by
  obtain ⟨⟨k0, v⟩, hmem, hfst⟩ := List.mem_map.mp hk
  cases hfst
  have hnd2 : (okeys m2).Nodup := ((hp.map Prod.fst).nodup_iff).mp hnd
  have h1 := olookup_eq_some_of_mem hnd hmem
  have h2 := olookup_eq_some_of_mem hnd2 (hp.subset hmem)
  simp [olookupD, h1, h2]

theorem calculateSignature_perm (m1 m2 : SObj) (secret : String)
    (hnd : (okeys m1).Nodup) (hp : m1.Perm m2) :
    calculateSignature m1 secret = calculateSignature m2 secret := by
  unfold calculateSignature signatureBase
  congr 1
  have hkp : (okeys m1).Perm (okeys m2) := hp.map Prod.fst
  have hsorted : (okeys m1).insertionSort strLeP = (okeys m2).insertionSort strLeP := by
    refine List.eq_of_perm_of_sorted
      ((List.perm_insertionSort _ _).trans (hkp.trans (List.perm_insertionSort _ _).symm))
      (List.sorted_insertionSort _ _) (List.sorted_insertionSort _ _)
  rw [hsorted]
  congr 1
  refine List.map_congr_left ?_
  intro k hkmem
  have hk2 : k ∈ okeys m2 := (List.perm_insertionSort _ _).subset hkmem
  have hk1 : k ∈ okeys m1 := hkp.symm.subset hk2
  rw [olookupD_perm_eq hnd hp hk1]

/-- C1: calculateSignature is insensitive to the insertion order of the parameter
map and equals the HMAC-SHA256 lowercase hex digest of the canonical
string obtained by sorting the keys lexicographically and joining
key=value pairs with ampersands and no trailing separator; in particular
the maps with keys a and b in either insertion order sign identically
under secret "secret", and both equal the HMAC-SHA256 hex of "a=1&b=2". -/
theorem calculateSignature_canonical_and_order_insensitive :
    (∀ (m1 m2 : SObj) (secret : String), (okeys m1).Nodup → m1.Perm m2 →
      calculateSignature m1 secret = calculateSignature m2 secret)
    ∧ (∀ (m : SObj) (secret : String),
      calculateSignature m secret = hmacSHA256Hex secret (signatureBase m))
    ∧ calculateSignature [("b", .vstr "2"), ("a", .vstr "1")] "secret"
        = calculateSignature [("a", .vstr "1"), ("b", .vstr "2")] "secret"
    ∧ calculateSignature [("a", .vstr "1"), ("b", .vstr "2")] "secret"
        = hmacSHA256Hex "secret" "a=1&b=2" := by
  refine ⟨calculateSignature_perm, fun m secret => rfl, ?_, ?_⟩
  · exact congrArg (hmacSHA256Hex "secret") (by decide)
  · exact congrArg (hmacSHA256Hex "secret") (by decide)

/-- C1 witness: the order-insensitivity component applied at the concrete
two-key maps of the spec scenario. -/
theorem calculateSignature_canonical_witness :
    calculateSignature [("b", .vstr "2"), ("a", .vstr "1")] "secret"
      = calculateSignature [("a", .vstr "1"), ("b", .vstr "2")] "secret" :=
  calculateSignature_canonical_and_order_insensitive.1
    [("b", .vstr "2"), ("a", .vstr "1")] [("a", .vstr "1"), ("b", .vstr "2")]
    "secret" (by decide) (by decide)

/-! ### Lemmas for the prepare/verify round trip -/

theorem oset_of_not_mem {l : SObj} {k : String} (v : SVal) (h : k ∉ okeys l) :
    oset l k v = l ++ [(k, v)] := by
  induction l with
  | nil => rfl
  | cons hd tl ih =>
    obtain ⟨k', v'⟩ := hd
    have hk : k ≠ k' ∧ k ∉ okeys tl := by simpa [okeys] using h
    simp [oset, hk.1]
    exact ih hk.2

theorem mem_okeys_oset {l : SObj} {k j : String} {v : SVal} (hne : j ≠ k) :
    j ∈ okeys (oset l k v) ↔ j ∈ okeys l := by
  induction l with
  | nil => simp [oset, okeys, hne]
  | cons hd tl ih =>
    obtain ⟨k', v'⟩ := hd
    by_cases hkk : k = k'
    · subst hkk
      simp [oset, okeys, hne]
    · simp [oset, hkk, okeys] at ih ⊢
      tauto

theorem not_mem_okeys_osetIfFalsy {l : SObj} {k j : String} {v : SVal}
    (hne : j ≠ k) (h : j ∉ okeys l) : j ∉ okeys (osetIfFalsy l k v) := by
  unfold osetIfFalsy
  split
  · exact h
  · exact fun hmem => h ((mem_okeys_oset hne).mp hmem)

theorem not_mem_okeys_filter {l : SObj} {j : String} (p : String × SVal → Bool)
    (h : j ∉ okeys l) : j ∉ okeys (l.filter p) := by
  intro hmem
  obtain ⟨kv, hkv, hfst⟩ := List.mem_map.mp hmem
  exact h (List.mem_map.mpr ⟨kv, List.mem_of_mem_filter hkv, hfst⟩)

theorem olookup_append_right {l : SObj} {k : String} (v : SVal) (h : k ∉ okeys l) :
    olookup (l ++ [(k, v)]) k = some v := by
  induction l with
  | nil => simp [olookup]
  | cons hd tl ih =>
    obtain ⟨k', v'⟩ := hd
    have hk : k ≠ k' ∧ k ∉ okeys tl := by simpa [okeys] using h
    simp [olookup, hk.1]
    exact ih hk.2

theorem oerase_append {l : SObj} {k : String} (v : SVal) (h : k ∉ okeys l) :
    oerase (l ++ [(k, v)]) k = l := by
  induction l with
  | nil => simp [oerase]
  | cons hd tl ih =>
    obtain ⟨k', v'⟩ := hd
    have hk : k ≠ k' ∧ k ∉ okeys tl := by simpa [okeys] using h
    simp [oerase, hk.1]
    exact ih hk.2

theorem sha256_ne_nil (msg : List Nat) : sha256 msg ≠ [] := by
  simp [sha256, be32]

theorem bytesToHex_ne_empty {bs : List Nat} (h : bs ≠ []) : bytesToHex bs ≠ "" := by
  cases bs with
  | nil => exact absurd rfl h
  | cons b rest =>
    intro hcontr
    have hd := congrArg String.data hcontr
    simp [bytesToHex] at hd

theorem hmacSHA256_ne_nil (key msg : List Nat) : hmacSHA256 key msg ≠ [] := by
  unfold hmacSHA256
  intro h
  exact sha256_ne_nil _ h

theorem hmacSHA256Hex_ne_empty (secret message : String) : hmacSHA256Hex secret message ≠ "" :=
  bytesToHex_ne_empty (hmacSHA256_ne_nil _ _)

/-- The fields of a signed payload other than sign: the sign property of
prepareSignedPayload is computed over exactly this object. -/
theorem prepareSignedPayload_shape (fields : SObj) (apiKey apiSecret : String) (now : Int)
    (hsign : "sign" ∉ okeys fields) :
    prepareSignedPayload fields apiKey apiSecret now
      = preparedFields fields apiKey now
        ++ [("sign", .vstr (calculateSignature (preparedFields fields apiKey now) apiSecret))] := by
  have h1 : "sign" ∉ okeys (preparedFields fields apiKey now) := by
    unfold preparedFields
    refine not_mem_okeys_filter _ (not_mem_okeys_osetIfFalsy (by decide) ?_)
    exact not_mem_okeys_osetIfFalsy (by decide) hsign
  unfold prepareSignedPayload
  exact oset_of_not_mem _ h1

/-- C2 (amended): for every map of valid scalar fields that does not
itself contain a key named sign, verifySignature of
the output of prepareSignedPayload under the same secret is true; the payload
is the stripped-and-defaulted fields followed by the sign property, whose
value is the signature of exactly those other fields, so the attached
signature is never part of its own input. -/
theorem prepareSignedPayload_roundtrip (fields : SObj) (apiKey apiSecret : String) (now : Int)
    (hsign : "sign" ∉ okeys fields)
    (_hvalid : ∀ kv ∈ fields, isStrippedVal kv.2 = false) :
    verifySignature (prepareSignedPayload fields apiKey apiSecret now) apiSecret = true
    ∧ oerase (prepareSignedPayload fields apiKey apiSecret now) "sign"
        = preparedFields fields apiKey now
    ∧ olookup (prepareSignedPayload fields apiKey apiSecret now) "sign"
        = some (.vstr (calculateSignature (preparedFields fields apiKey now) apiSecret)) := by
  have h1 : "sign" ∉ okeys (preparedFields fields apiKey now) := by
    unfold preparedFields
    refine not_mem_okeys_filter _ (not_mem_okeys_osetIfFalsy (by decide) ?_)
    exact not_mem_okeys_osetIfFalsy (by decide) hsign
  have hshape := prepareSignedPayload_shape fields apiKey apiSecret now hsign
  have hl : olookup (prepareSignedPayload fields apiKey apiSecret now) "sign"
      = some (.vstr (calculateSignature (preparedFields fields apiKey now) apiSecret)) := by
    rw [hshape]; exact olookup_append_right _ h1
  have he : oerase (prepareSignedPayload fields apiKey apiSecret now) "sign"
      = preparedFields fields apiKey now := by
    rw [hshape]; exact oerase_append _ h1
  refine ⟨?_, he, hl⟩
  unfold verifySignature
  rw [hl, he]
  have hne : calculateSignature (preparedFields fields apiKey now) apiSecret ≠ "" :=
    hmacSHA256Hex_ne_empty _ _
  simp [svTruthy, hne]

/-- C2 counterexample: a valid scalar field named sign defeats the round
trip, because prepareSignedPayload includes the stale sign value in the
input of the new signature while verifySignature removes it before
recomputing. -/
theorem prepareSignedPayload_roundtrip_counterexample :
    verifySignature (prepareSignedPayload [("sign", .vstr "x")] "k" "s" 1) "s" = false := by
  decide

/-- C2 witness: the amended round trip at a concrete one-field map. -/
theorem prepareSignedPayload_roundtrip_witness :
    ("sign" ∉ okeys [("a", SVal.vstr "1")])
    ∧ verifySignature (prepareSignedPayload [("a", SVal.vstr "1")] "k" "s" 7) "s" = true :=
  ⟨by decide, (prepareSignedPayload_roundtrip [("a", .vstr "1")] "k" "s" 7
    (by decide) (by decide)).1⟩

/-! ### Base64 (node Buffer semantics) and chunked RSA decryption
(src/core/decryption.js, decryptRSAResponse)

The RSA primitive itself lives in the external jsencrypt package; it is
passed in as a function returning none where jsEncrypt.decrypt returns
false or null. -/

/-- Character of one 6-bit value in the standard base64 alphabet. -/
def b64CharOf (n : Nat) : Char :=
  if n < 26 then Char.ofNat (65 + n)
  else if n < 52 then Char.ofNat (97 + (n - 26))
  else if n < 62 then Char.ofNat (48 + (n - 52))
  else if n = 62 then '+' else '/'

/-- Base64 encoding of a byte list with trailing padding, grouping three
bytes into four characters (Buffer.prototype.toString with base64). -/
def b64EncodeGroups : List Nat → List Char
  | [] => []
  | [a] => [b64CharOf (a / 4), b64CharOf (a % 4 * 16), '=', '=']
  | [a, b] => [b64CharOf (a / 4), b64CharOf (a % 4 * 16 + b / 16), b64CharOf (b % 16 * 4), '=']
  | a :: b :: c :: rest =>
    b64CharOf (a / 4) :: b64CharOf (a % 4 * 16 + b / 16) ::
    b64CharOf (b % 16 * 4 + c / 64) :: b64CharOf (c % 64) :: b64EncodeGroups rest

/-- Base64 encoding of a byte list as a string. -/
def base64Encode (bs : List Nat) : String := ⟨b64EncodeGroups bs⟩

/-- Value of a base64 alphabet character; none for padding and for any
character outside the alphabet (node ignores those on decode). -/
def b64Val (c : Char) : Option Nat :=
  let n := c.toNat
  if 65 ≤ n ∧ n ≤ 90 then some (n - 65)
  else if 97 ≤ n ∧ n ≤ 122 then some (n - 71)
  else if 48 ≤ n ∧ n ≤ 57 then some (n + 4)
  else if n = 43 then some 62
  else if n = 47 then some 63
  else none

/-- Bytes from a list of 6-bit values: full groups of four give three
bytes, a trailing pair gives one byte, a trailing triple gives two. -/
def b64DecodeVals : List Nat → List Nat
  | a :: b :: c :: d :: rest =>
    (a * 4 + b / 16) :: (b % 16 * 16 + c / 4) :: (c % 4 * 64 + d) :: b64DecodeVals rest
  | [a, b] => [a * 4 + b / 16]
  | [a, b, c] => [a * 4 + b / 16, b % 16 * 16 + c / 4]
  | _ => []

/-- Base64 decoding of a string into raw bytes, node-style: non-alphabet
characters and padding are skipped (Buffer.from with base64). -/
def base64Decode (s : String) : List Nat :=
  b64DecodeVals (s.data.filterMap b64Val)

/-- Fail-fast traversal: the loop over chunks that throws on the first
chunk whose decryption returns false or null. -/
def optMapM (f : α → Option β) : List α → Option (List β)
  | [] => some []
  | a :: rest =>
    match f a with
    | none => none
    | some b => (optMapM f rest).map (b :: ·)

/-- The 128-byte blocks of the base64-decoded ciphertext, each re-encoded
to base64 (lines 69 to 80 of decryption.js). -/
def rsaChunks (encryptedData : String) : List String :=
  (chunksOf 128 (base64Decode encryptedData)).map base64Encode

/-- Chunked RSA decryption: decrypt every block independently and join
the decrypted strings; any failing block fails the whole attempt. -/
def rsaChunkedDecrypt (rsa : String → Option String) (encryptedData : String) : Option String :=
  (optMapM rsa (rsaChunks encryptedData)).map String.join

/-- The RSA decryption dispatch of decryptRSAResponse before the
post-processing: single-block decryption first, the chunked fallback only
when it fails. -/
def decryptRSARaw (rsa : String → Option String) (encryptedData : String) : Option String :=
  match rsa encryptedData with
  | some r => some r
  | none => rsaChunkedDecrypt rsa encryptedData

/-- The guard at lines 96 to 99: an empty decryption result is treated as
failure before the URL-decode and JSON-parse post-processing. -/
def decryptRSACore (rsa : String → Option String) (encryptedData : String) : Option String :=
  match decryptRSARaw rsa encryptedData with
  | some r => if r = "" then none else some r
  | none => none

theorem optMapM_eq_none_of_mem {f : α → Option β} {l : List α} {c : α}
    (hc : c ∈ l) (hf : f c = none) : optMapM f l = none := by
  induction l with
  | nil => cases hc
  | cons a rest ih =>
    rcases List.mem_cons.mp hc with heq | htl
    · subst heq
      simp [optMapM, hf]
    · unfold optMapM
      cases hfa : f a with
      | none => rfl
      | some b => simp [ih htl]

theorem optMapM_eq_map_of_all_some {f : α → Option β} {l : List α} (d : β)
    (h : ∀ c ∈ l, (f c).isSome) :
    optMapM f l = some (l.map (fun c => (f c).getD d)) := by
  induction l with
  | nil => rfl
  | cons a rest ih =>
    have ha := h a (List.mem_cons_self a rest)
    obtain ⟨b, hb⟩ := Option.isSome_iff_exists.mp ha
    have hrest := ih (fun c hc => h c (List.mem_cons_of_mem a hc))
    simp [optMapM, hb, hrest]

/-- C3: the chunked attempt is reached only when single-block decryption
fails; it base64-decodes the ciphertext, splits the raw bytes into
128-byte blocks and re-encodes each; if decryption of any block fails the
whole chunked attempt yields none, and otherwise the result is the
concatenation of the decrypted block strings in block order. -/
theorem decryptRSA_chunked_spec (rsa : String → Option String) (s : String) :
    (∀ r, rsa s = some r → decryptRSARaw rsa s = some r)
    ∧ (rsa s = none →
        decryptRSARaw rsa s
          = (optMapM rsa ((chunksOf 128 (base64Decode s)).map base64Encode)).map String.join)
    ∧ (∀ c, c ∈ rsaChunks s → rsa c = none → rsaChunkedDecrypt rsa s = none)
    ∧ ((∀ c ∈ rsaChunks s, (rsa c).isSome) →
        rsaChunkedDecrypt rsa s
          = some (String.join ((rsaChunks s).map (fun c => (rsa c).getD "")))) := by
  refine ⟨?_, ?_, ?_, ?_⟩
  · intro r hr
    simp [decryptRSARaw, hr]
  · intro hnone
    simp [decryptRSARaw, hnone, rsaChunkedDecrypt, rsaChunks]
  · intro c hc hfail
    simp [rsaChunkedDecrypt, optMapM_eq_none_of_mem hc hfail]
  · intro hall
    simp [rsaChunkedDecrypt, optMapM_eq_map_of_all_some "" hall]

/-- C3 witness: a 129-byte ciphertext splits into a 128-byte and a 1-byte
block; with every block decrypting to "x" the chunked result is the
in-order concatenation, and an oracle failing on the first block makes
the whole attempt fail. -/
theorem decryptRSA_chunked_spec_witness :
    ((∀ c ∈ rsaChunks (base64Encode (List.replicate 129 0)),
        ((fun (_ : String) => some "x") c).isSome)
      ∧ rsaChunkedDecrypt (fun _ => some "x") (base64Encode (List.replicate 129 0))
          = some (String.join ((rsaChunks (base64Encode (List.replicate 129 0))).map
              (fun c => ((fun (_ : String) => some "x") c).getD ""))))
    ∧ (base64Encode (List.replicate 128 0) ∈ rsaChunks (base64Encode (List.replicate 129 0))
      ∧ rsaChunkedDecrypt
          (fun c => if c = base64Encode (List.replicate 128 0) then none else some "x")
          (base64Encode (List.replicate 129 0)) = none) := by
  have hchunks : rsaChunks (base64Encode (List.replicate 129 0))
      = [base64Encode (List.replicate 128 0), base64Encode [0]] := by decide
  refine ⟨⟨fun c _ => rfl,
    (decryptRSA_chunked_spec (fun _ => some "x")
      (base64Encode (List.replicate 129 0))).2.2.2 (fun c _ => rfl)⟩, ?_, ?_⟩
  · rw [hchunks]
    exact List.mem_cons_self _ _
  · exact (decryptRSA_chunked_spec
      (fun c => if c = base64Encode (List.replicate 128 0) then none else some "x")
      (base64Encode (List.replicate 129 0))).2.2.1
      (base64Encode (List.replicate 128 0))
      (by rw [hchunks]; exact List.mem_cons_self _ _) (by simp)

/-! ### JSON values and the recursive token search
(src/core/authentication.js, findToken inside _extractTokenFromResponse)

In JavaScript, typeof yields "object" for arrays as well, so the search
descends into arrays; the direct check if obj.token and the check on the
recursion result are truthiness tests. -/

/-- Decrypted JSON values. -/
inductive Jv where
  | jstr (s : String)
  | jnum (n : Int)
  | jbool (b : Bool)
  | jnull
  | jobj (fields : List (String × Jv))
  | jarr (elems : List Jv)
deriving Repr

/-- JavaScript truthiness of a JSON value: empty string, 0, false and
null are falsy; objects and arrays are always truthy. -/
def jvTruthy : Jv → Bool
  | .jstr s => s ≠ ""
  | .jnum n => n ≠ 0
  | .jbool b => b
  | .jnull => false
  | .jobj _ => true
  | .jarr _ => true

/-- Property lookup in the field list of an object. -/
def jfLookup : List (String × Jv) → String → Option Jv
  | [], _ => none
  | (k, v) :: rest, key => if key = k then some v else jfLookup rest key

mutual

/-- The findToken closure: null for primitives and null, otherwise return
obj.token when truthy, else recurse depth-first through every property
(for arrays, every element) and return the first truthy hit. -/
def findToken : Jv → Option Jv
  | .jobj fields =>
    match jfLookup fields "token" with
    | some t => if jvTruthy t then some t else findTokenFields fields
    | none => findTokenFields fields
  | .jarr elems => findTokenElems elems
  | _ => none

/-- Depth-first search over the values of the fields of an object in order. -/
def findTokenFields : List (String × Jv) → Option Jv
  | [] => none
  | (_, v) :: rest =>
    match findToken v with
    | some r => some r
    | none => findTokenFields rest

/-- Depth-first search over the elements of an array in order. -/
def findTokenElems : List Jv → Option Jv
  | [] => none
  | v :: rest =>
    match findToken v with
    | some r => some r
    | none => findTokenElems rest

end

mutual

/-- All values of fields named token anywhere in the structure,
descending through both objects and arrays. -/
def tokenVals : Jv → List Jv
  | .jobj fields => tokenValsFields fields
  | .jarr elems => tokenValsElems elems
  | _ => []

/-- Token values contributed by the field list of an object. -/
def tokenValsFields : List (String × Jv) → List Jv
  | [] => []
  | (k, v) :: rest =>
    (if k = "token" then [v] else []) ++ tokenVals v ++ tokenValsFields rest

/-- Token values contributed by the elements of an array. -/
def tokenValsElems : List Jv → List Jv
  | [] => []
  | v :: rest => tokenVals v ++ tokenValsElems rest

end

/-- Key membership in a field list. -/
def jfHasKey (fields : List (String × Jv)) (k : String) : Bool :=
  (jfLookup fields k).isSome

/-- Duplicate-free keys of one field list. -/
def nodupKeysB : List (String × Jv) → Bool
  | [] => true
  | (k, _) :: rest => !jfHasKey rest k && nodupKeysB rest

mutual

/-- Well-formed JSON: the keys of every object are duplicate-free, recursively
(guaranteed for structures produced by JSON.parse). -/
def jvWF : Jv → Bool
  | .jobj fields => nodupKeysB fields && jvWFFields fields
  | .jarr elems => jvWFElems elems
  | _ => true

/-- Well-formedness of every value in a field list. -/
def jvWFFields : List (String × Jv) → Bool
  | [] => true
  | (_, v) :: rest => jvWF v && jvWFFields rest

/-- Well-formedness of every element of an array. -/
def jvWFElems : List Jv → Bool
  | [] => true
  | v :: rest => jvWF v && jvWFElems rest

end

theorem jfLookup_mem_tokenValsFields {fields : List (String × Jv)} {t : Jv}
    (h : jfLookup fields "token" = some t) : t ∈ tokenValsFields fields := by
  induction fields with
  | nil => simp [jfLookup] at h
  | cons hd rest ih =>
    obtain ⟨k, v⟩ := hd
    by_cases hk : "token" = k
    · subst hk
      simp [jfLookup] at h
      subst h
      simp [tokenValsFields]
    · simp [jfLookup, hk] at h
      simp [tokenValsFields]
      exact Or.inr (Or.inr (ih h))

theorem jfLookup_none_no_key {fields : List (String × Jv)} {w : Jv}
    (h : jfLookup fields "token" = none) (hmem : ("token", w) ∈ fields) : False := by
  induction fields with
  | nil => cases hmem
  | cons hd rest ih =>
    obtain ⟨k, v⟩ := hd
    rcases List.mem_cons.mp hmem with heq | htl
    · cases heq
      simp [jfLookup] at h
    · by_cases hk : "token" = k
      · simp [jfLookup, hk] at h
      · simp [jfLookup, hk] at h
        exact ih h htl

theorem jfLookup_eq_of_mem_nodup {fields : List (String × Jv)} {w : Jv}
    (hnd : nodupKeysB fields = true) (hmem : ("token", w) ∈ fields) :
    jfLookup fields "token" = some w := by
  induction fields with
  | nil => cases hmem
  | cons hd rest ih =>
    obtain ⟨k, v⟩ := hd
    have hnd' : jfHasKey rest k = false ∧ nodupKeysB rest = true := by
      simpa [nodupKeysB] using hnd
    rcases List.mem_cons.mp hmem with heq | htl
    · cases heq
      simp [jfLookup]
    · by_cases hk : "token" = k
      · subst hk
        have : (jfLookup rest "token").isSome := by
          rw [ih hnd'.2 htl]; rfl
        rw [jfHasKey] at hnd'
        rw [hnd'.1] at this
        cases this
      · simp [jfLookup, hk]
        exact ih hnd'.2 htl

theorem tokenValsFields_mem_cases {fields : List (String × Jv)} {tv : Jv}
    (h : tv ∈ tokenValsFields fields) :
    (∃ w, ("token", w) ∈ fields ∧ tv = w)
    ∨ (∃ k w, (k, w) ∈ fields ∧ tv ∈ tokenVals w) := by
  induction fields with
  | nil => simp [tokenValsFields] at h
  | cons hd rest ih =>
    obtain ⟨k, v⟩ := hd
    simp only [tokenValsFields, List.mem_append] at h
    rcases h with (hdir | hsub) | htl
    · by_cases hk : k = "token"
      · subst hk
        simp at hdir
        exact Or.inl ⟨v, List.mem_cons_self _ _, hdir⟩
      · simp [hk] at hdir
    · exact Or.inr ⟨k, v, List.mem_cons_self _ _, hsub⟩
    · rcases ih htl with ⟨w, hw, htv⟩ | ⟨k', w, hw, htv⟩
      · exact Or.inl ⟨w, List.mem_cons_of_mem _ hw, htv⟩
      · exact Or.inr ⟨k', w, List.mem_cons_of_mem _ hw, htv⟩

theorem tokenValsElems_mem_cases {elems : List Jv} {tv : Jv}
    (h : tv ∈ tokenValsElems elems) : ∃ w, w ∈ elems ∧ tv ∈ tokenVals w := by
  induction elems with
  | nil => simp [tokenValsElems] at h
  | cons v rest ih =>
    simp only [tokenValsElems, List.mem_append] at h
    rcases h with hv | htl
    · exact ⟨v, List.mem_cons_self _ _, hv⟩
    · obtain ⟨w, hw, htv⟩ := ih htl
      exact ⟨w, List.mem_cons_of_mem _ hw, htv⟩

theorem jvWFFields_value {fields : List (String × Jv)} {k : String} {w : Jv}
    (hwf : jvWFFields fields = true) (hmem : (k, w) ∈ fields) : jvWF w = true := by
  induction fields with
  | nil => cases hmem
  | cons hd rest ih =>
    obtain ⟨k', v'⟩ := hd
    have h' : jvWF v' = true ∧ jvWFFields rest = true := by
      simpa [jvWFFields] using hwf
    rcases List.mem_cons.mp hmem with heq | htl
    · cases heq; exact h'.1
    · exact ih h'.2 htl

theorem jvWFElems_value {elems : List Jv} {w : Jv}
    (hwf : jvWFElems elems = true) (hmem : w ∈ elems) : jvWF w = true := by
  induction elems with
  | nil => cases hmem
  | cons v rest ih =>
    have h' : jvWF v = true ∧ jvWFElems rest = true := by
      simpa [jvWFElems] using hwf
    rcases List.mem_cons.mp hmem with heq | htl
    · cases heq; exact h'.1
    · exact ih h'.2 htl

mutual

theorem findToken_sound : ∀ (s r : Jv), findToken s = some r →
    r ∈ tokenVals s ∧ jvTruthy r = true
  | .jobj fields, r, h => by
    rw [tokenVals]
    cases hlk : jfLookup fields "token" with
    | some t =>
      by_cases htr : jvTruthy t
      · rw [findToken, hlk] at h
        simp [htr] at h
        subst h
        exact ⟨jfLookup_mem_tokenValsFields hlk, htr⟩
      · rw [findToken, hlk] at h
        simp [htr] at h
        exact findTokenFields_sound fields r h
    | none =>
      rw [findToken, hlk] at h
      exact findTokenFields_sound fields r h
  | .jarr elems, r, h => by
    rw [tokenVals]
    rw [findToken] at h
    exact findTokenElems_sound elems r h
  | .jstr _, r, h => by simp [findToken] at h
  | .jnum _, r, h => by simp [findToken] at h
  | .jbool _, r, h => by simp [findToken] at h
  | .jnull, r, h => by simp [findToken] at h

theorem findTokenFields_sound : ∀ (fields : List (String × Jv)) (r : Jv),
    findTokenFields fields = some r → r ∈ tokenValsFields fields ∧ jvTruthy r = true
  | [], r, h => by rw [findTokenFields] at h; cases h
  | (k, v) :: rest, r, h => by
    rw [findTokenFields] at h
    cases hf : findToken v with
    | some r0 =>
      rw [hf] at h
      injection h with h2
      subst h2
      have hs := findToken_sound v r0 hf
      refine ⟨?_, hs.2⟩
      simp [tokenValsFields]
      exact Or.inr (Or.inl hs.1)
    | none =>
      rw [hf] at h
      have hs := findTokenFields_sound rest r h
      refine ⟨?_, hs.2⟩
      simp [tokenValsFields]
      exact Or.inr (Or.inr hs.1)

theorem findTokenElems_sound : ∀ (elems : List Jv) (r : Jv),
    findTokenElems elems = some r → r ∈ tokenValsElems elems ∧ jvTruthy r = true
  | [], r, h => by rw [findTokenElems] at h; cases h
  | v :: rest, r, h => by
    rw [findTokenElems] at h
    cases hf : findToken v with
    | some r0 =>
      rw [hf] at h
      injection h with h2
      subst h2
      have hs := findToken_sound v r0 hf
      refine ⟨?_, hs.2⟩
      simp [tokenValsElems]
      exact Or.inl hs.1
    | none =>
      rw [hf] at h
      have hs := findTokenElems_sound rest r h
      refine ⟨?_, hs.2⟩
      simp [tokenValsElems]
      exact Or.inr hs.1

end

mutual

theorem findToken_complete : ∀ (s : Jv), jvWF s = true → ∀ t : Jv, t ∈ tokenVals s →
    jvTruthy t = true → (findToken s).isSome
  | .jobj fields, hwf, t, hmem, htr => by
    have hwf2 : nodupKeysB fields = true ∧ jvWFFields fields = true := by
      simpa [jvWF] using hwf
    rw [tokenVals] at hmem
    cases hlk : jfLookup fields "token" with
    | some t0 =>
      by_cases htr0 : jvTruthy t0
      · rw [findToken, hlk]
        simp [htr0]
      · rcases tokenValsFields_mem_cases hmem with ⟨w, hw, rfl⟩ | ⟨k, w, hw, hsub⟩
        · have huniq := jfLookup_eq_of_mem_nodup hwf2.1 hw
          rw [hlk] at huniq
          cases huniq
          exact absurd htr (by simpa using htr0)
        · have hrec := findTokenFields_complete fields hwf2.2 k w hw t hsub htr
          rw [findToken, hlk]
          simpa [htr0] using hrec
    | none =>
      rcases tokenValsFields_mem_cases hmem with ⟨w, hw, rfl⟩ | ⟨k, w, hw, hsub⟩
      · exact absurd (jfLookup_none_no_key hlk hw) not_false
      · have hrec := findTokenFields_complete fields hwf2.2 k w hw t hsub htr
        rw [findToken, hlk]
        exact hrec
  | .jarr elems, hwf, t, hmem, htr => by
    rw [tokenVals] at hmem
    obtain ⟨w, hw, hsub⟩ := tokenValsElems_mem_cases hmem
    have hrec := findTokenElems_complete elems (by simpa [jvWF] using hwf) w hw t hsub htr
    rw [findToken]
    exact hrec
  | .jstr _, _, t, hmem, _ => by simp [tokenVals] at hmem
  | .jnum _, _, t, hmem, _ => by simp [tokenVals] at hmem
  | .jbool _, _, t, hmem, _ => by simp [tokenVals] at hmem
  | .jnull, _, t, hmem, _ => by simp [tokenVals] at hmem

theorem findTokenFields_complete : ∀ (fields : List (String × Jv)),
    jvWFFields fields = true → ∀ (k : String) (w : Jv), (k, w) ∈ fields →
    ∀ t : Jv, t ∈ tokenVals w → jvTruthy t = true → (findTokenFields fields).isSome
  | [], _, k, w, hmem, _, _, _ => by cases hmem
  | (k0, v0) :: rest, hwf, k, w, hmem, t, hsub, htr => by
    have hwf2 : jvWF v0 = true ∧ jvWFFields rest = true := by
      simpa [jvWFFields] using hwf
    cases hf : findToken v0 with
    | some r => rw [findTokenFields, hf]; rfl
    | none =>
      rcases List.mem_cons.mp hmem with heq | htl
      · cases heq
        have := findToken_complete v0 hwf2.1 t hsub htr
        rw [hf] at this
        cases this
      · have hrec := findTokenFields_complete rest hwf2.2 k w htl t hsub htr
        rw [findTokenFields, hf]
        exact hrec

theorem findTokenElems_complete : ∀ (elems : List Jv),
    jvWFElems elems = true → ∀ w : Jv, w ∈ elems →
    ∀ t : Jv, t ∈ tokenVals w → jvTruthy t = true → (findTokenElems elems).isSome
  | [], _, w, hmem, _, _, _ => by cases hmem
  | v :: rest, hwf, w, hmem, t, hsub, htr => by
    have hwf2 : jvWF v = true ∧ jvWFElems rest = true := by
      simpa [jvWFElems] using hwf
    cases hf : findToken v with
    | some r => rw [findTokenElems, hf]; rfl
    | none =>
      rcases List.mem_cons.mp hmem with heq | htl
      · cases heq
        have := findToken_complete v hwf2.1 t hsub htr
        rw [hf] at this
        cases this
      · have hrec := findTokenElems_complete rest hwf2.2 w htl t hsub htr
        rw [findTokenElems, hf]
        exact hrec

end

/-- C5 (amended): the recursive token search is an unbounded depth-first
search that descends into objects and arrays alike (typeof is "object"
for both); any value it returns is the value of some field named token in
the structure and is truthy; on any well-formed structure containing a
truthy token field at any depth it finds one; and on a structure with no
token field at all it returns none. -/
theorem findToken_search_spec :
    (∀ (s r : Jv), findToken s = some r → r ∈ tokenVals s ∧ jvTruthy r = true)
    ∧ (∀ s : Jv, jvWF s = true → ∀ t : Jv, t ∈ tokenVals s → jvTruthy t = true →
        (findToken s).isSome)
    ∧ (∀ s : Jv, tokenVals s = [] → findToken s = none) := by
  refine ⟨findToken_sound, findToken_complete, ?_⟩
  intro s hempty
  cases hf : findToken s with
  | none => rfl
  | some r =>
    have hs := findToken_sound s r hf
    rw [hempty] at hs
    cases hs.1

/-- C5 counterexample: the search does descend into arrays, returning a
token nested below an array element, and a structure containing a token
field with a falsy (empty-string) value yields none rather than that
value, refuting the claim as stated. -/
theorem findToken_search_counterexample :
    findToken (.jobj [("a", .jarr [.jobj [("token", .jstr "T")]])]) = some (.jstr "T")
    ∧ findToken (.jobj [("token", .jstr "")]) = none :=
  ⟨rfl, rfl⟩

/-- C5 witness: a truthy token at depth three among sibling non-token
keys is found, and a token-free structure yields none. -/
theorem findToken_search_spec_witness :
    ((findToken (.jobj [("y", .jnum 2),
        ("a", .jobj [("b", .jobj [("x", .jnum 1), ("token", .jstr "T")])])])).isSome)
    ∧ findToken (.jobj [("a", .jobj [("b", .jnum 3)]), ("c", .jarr [.jstr "u"])]) = none :=
  ⟨findToken_search_spec.2.1
      (.jobj [("y", .jnum 2),
        ("a", .jobj [("b", .jobj [("x", .jnum 1), ("token", .jstr "T")])])])
      rfl (.jstr "T") (List.Mem.head _) rfl,
   findToken_search_spec.2.2
      (.jobj [("a", .jobj [("b", .jnum 3)]), ("c", .jarr [.jstr "u"])]) rfl⟩

/-! ### processApiResponse (src/core/decryption.js, lines 167 to 205)

The two decryption routines it dispatches to are passed in as oracles:
rsa models decryptRSAResponse (null on failure, a parsed JSON value on
success), aes models decryptAESString (null on failure, plaintext string
on success), and jparse models JSON.parse (none when parsing throws). -/

/-- A response envelope: the data field, the two annotation properties
added on successful decryption, and the other pass-through fields. -/
structure Envelope where
  data : Option Jv
  origEnc : Option String
  method : Option String
  rest : List (String × Jv)
deriving Repr

/-- The AES fallback branch of processApiResponse: on a truthy decrypt
result, JSON-parse it (falling back to the raw string) and annotate the
envelope; otherwise return the envelope unchanged. -/
def aesFallback (aes : String → Option String) (jparse : String → Option Jv)
    (resp : Envelope) (s : String) : Envelope :=
  match aes s with
  | some a =>
    if a = "" then resp
    else { resp with data := some ((jparse a).getD (.jstr a)),
                     origEnc := some s, method := some "AES" }
  | none => resp

/-- processApiResponse: a no-op unless the data field is a truthy string;
then RSA first (accepted only when the decrypted value is truthy), the
AES fallback second, and the original envelope unchanged when both fail.
The embedding is a total function: decryption failure is not an
exception. -/
def processApiResponse (rsa : String → Option Jv) (aes : String → Option String)
    (jparse : String → Option Jv) (resp : Envelope) : Envelope :=
  match resp.data with
  | some (.jstr s) =>
    if s = "" then resp
    else
      match rsa s with
      | some j =>
        if jvTruthy j then
          { resp with data := some j, origEnc := some s, method := some "RSA" }
        else aesFallback aes jparse resp s
      | none => aesFallback aes jparse resp s
  | _ => resp

/-- C4: when the data field is a string on which the RSA path fails
(null or a falsy parse result) and the AES path fails (null, or the empty
string that decryptAESString turns into null), processApiResponse returns
the original envelope itself, with the original ciphertext still in data
and no decryption-method marker added; being a total function, it throws
nothing. -/
theorem processApiResponse_failure_unchanged (rsa : String → Option Jv)
    (aes : String → Option String) (jparse : String → Option Jv)
    (resp : Envelope) (s : String)
    (hdata : resp.data = some (.jstr s))
    (hrsa : rsa s = none ∨ ∃ j, rsa s = some j ∧ jvTruthy j = false)
    (haes : aes s = none ∨ aes s = some "") :
    processApiResponse rsa aes jparse resp = resp := by
  have haesb : aesFallback aes jparse resp s = resp := by
    rcases haes with h | h <;> simp [aesFallback, h]
  unfold processApiResponse
  rw [hdata]
  by_cases hs : s = ""
  · simp [hs]
  · simp only [hs, if_false]
    rcases hrsa with h | ⟨j, hj, htr⟩
    · rw [h, haesb]
    · rw [hj]
      simp [htr, haesb]

/-- C4 witness: the failure path at a concrete envelope whose data is a
ciphertext string, with oracles that fail on everything. -/
theorem processApiResponse_failure_unchanged_witness :
    processApiResponse (fun _ => none) (fun _ => none) (fun _ => none)
      ⟨some (.jstr "Zm9v"), none, none, [("code", .jnum 200)]⟩
      = ⟨some (.jstr "Zm9v"), none, none, [("code", .jnum 200)]⟩ :=
  processApiResponse_failure_unchanged (fun _ => none) (fun _ => none) (fun _ => none)
    ⟨some (.jstr "Zm9v"), none, none, [("code", .jnum 200)]⟩ "Zm9v"
    rfl (Or.inl rfl) (Or.inl rfl)

/-! ### The retry loop and statistics of the request dispatcher
(src/core/CoinPlexClient.js, lines 62 to 67 and 128 to 160)

One attempt either resolves with a response (any status code, decrypted
or not: _makeHttpRequest resolves even when the body fails to decrypt) or
rejects with a transport error.  The per-attempt outcome is supplied as a
function from the 1-based attempt number. -/

/-- A resolved HTTP response: status code, whether a decryption method
was applied, and the body. -/
structure RespR where
  status : Nat
  decrypted : Bool
  body : String
deriving DecidableEq, Repr

/-- Outcome of one attempt: resolve or reject. -/
inductive AttemptOut where
  | resolved (r : RespR)
  | rejected (err : String)
deriving DecidableEq, Repr

/-- The dispatch statistics counters. -/
structure Stats where
  requests : Nat
  successful : Nat
  failed : Nat
  encrypted : Nat
deriving DecidableEq, Repr

/-- The all-zero counters installed by the constructor. -/
def initialStats : Stats := ⟨0, 0, 0, 0⟩

/-- The counters object assigned by resetStats. -/
def resetStatsValue : Stats := ⟨0, 0, 0, 0⟩

/-- Statistics update on a resolved attempt: requests incremented, then
successful on a 2xx status and failed otherwise, then encrypted when a
decryption method was applied. -/
def classifyResolved (s : Stats) (r : RespR) : Stats :=
  let s1 : Stats := { s with requests := s.requests + 1 }
  let s2 : Stats :=
    if 200 ≤ r.status ∧ r.status < 300 then { s1 with successful := s1.successful + 1 }
    else { s1 with failed := s1.failed + 1 }
  if r.decrypted then { s2 with encrypted := s2.encrypted + 1 } else s2

/-- Result of one completed request call: the value returned or the error
thrown, the number of attempts made, the delays slept between attempts,
and the final statistics. -/
structure ReqOutcome where
  result : Except String RespR
  attemptsMade : Nat
  delays : List Nat
  stats : Stats
deriving Repr

/-- The while loop of request: n is the 1-based number of the next
attempt, remaining the attempts still allowed.  A resolved attempt
returns at once; a rejected attempt increments failed and either throws
(no attempts left) or sleeps 1000 times the attempt number and retries.
The remaining = 0 base case models the JavaScript loop exiting without a
result, which is unreachable since maxAttempts is at least 1. -/
def requestLoop (f : Nat → AttemptOut) : Nat → Nat → Stats → ReqOutcome
  | _, 0, s => ⟨.error "", 0, [], s⟩
  | n, remaining + 1, s =>
    match f n with
    | .resolved r => ⟨.ok r, 1, [], classifyResolved s r⟩
    | .rejected e =>
      let s1 : Stats := { s with requests := s.requests + 1, failed := s.failed + 1 }
      if remaining = 0 then ⟨.error e, 1, [], s1⟩
      else
        let rest := requestLoop f (n + 1) remaining s1
        ⟨rest.result, rest.attemptsMade + 1, 1000 * n :: rest.delays, rest.stats⟩

/-- maxAttempts: 3 with autoRetry (the default), otherwise 1. -/
def maxAttemptsOf (autoRetry : Bool) : Nat := if autoRetry then 3 else 1

/-- One completed call of the request method. -/
def requestRun (autoRetry : Bool) (f : Nat → AttemptOut) (s : Stats) : ReqOutcome :=
  requestLoop f 1 (maxAttemptsOf autoRetry) s

/-- C6: with auto-retry enabled maxAttempts is 3; when every attempt
rejects, the dispatcher makes exactly 3 attempts, sleeps 1000 then 2000
milliseconds between consecutive attempts, and throws the error of the
final attempt; a first attempt that resolves (in particular a response
whose body failed to decrypt, which resolves rather than rejects) is
returned at once with no retry. -/
theorem request_retry_spec (f : Nat → AttemptOut) (e : Nat → String) :
    maxAttemptsOf true = 3
    ∧ ((∀ k, f k = .rejected (e k)) →
        requestRun true f initialStats
          = ⟨.error (e 3), 3, [1000, 2000], ⟨3, 0, 3, 0⟩⟩)
    ∧ (∀ r, f 1 = .resolved r →
        requestRun true f initialStats = ⟨.ok r, 1, [], classifyResolved initialStats r⟩) := by
  refine ⟨rfl, ?_, ?_⟩
  · intro h
    have h1 := h 1
    have h2 := h 2
    have h3 := h 3
    simp [requestRun, maxAttemptsOf, requestLoop, h1, h2, h3, initialStats]
  · intro r hr
    simp [requestRun, maxAttemptsOf, requestLoop, hr]

/-- C6 witness: the exhausted-retries component at a concrete
always-rejecting transport, and the no-retry component at a transport
resolving a 500 response on the first attempt. -/
theorem request_retry_spec_witness :
    requestRun true (fun k => .rejected (if k = 3 then "last" else "boom")) initialStats
      = ⟨.error "last", 3, [1000, 2000], ⟨3, 0, 3, 0⟩⟩
    ∧ requestRun true (fun _ => .resolved ⟨500, false, "undecrypted"⟩) initialStats
      = ⟨.ok ⟨500, false, "undecrypted"⟩, 1, [],
          classifyResolved initialStats ⟨500, false, "undecrypted"⟩⟩ :=
  ⟨by
    have := (request_retry_spec (fun k => .rejected (if k = 3 then "last" else "boom"))
      (fun k => if k = 3 then "last" else "boom")).2.1 (fun k => rfl)
    simpa using this,
   (request_retry_spec (fun _ => .resolved ⟨500, false, "undecrypted"⟩)
      (fun _ => "")).2.2 ⟨500, false, "undecrypted"⟩ rfl⟩

/-! ### The statistics invariant (C9) -/

/-- Componentwise order on the counters. -/
def statsLE (s t : Stats) : Prop :=
  s.requests ≤ t.requests ∧ s.successful ≤ t.successful
  ∧ s.failed ≤ t.failed ∧ s.encrypted ≤ t.encrypted

/-- The requests counter equals successful plus failed. -/
def balanced (s : Stats) : Prop := s.requests = s.successful + s.failed

theorem classifyResolved_balanced (s : Stats) (r : RespR) (hb : balanced s) :
    balanced (classifyResolved s r) := by
  unfold balanced classifyResolved at *
  split_ifs <;> simp only [] <;> omega

theorem classifyResolved_le (s : Stats) (r : RespR) : statsLE s (classifyResolved s r) := by
  unfold statsLE classifyResolved
  split_ifs <;> simp only [] <;> omega

theorem requestLoop_balanced (f : Nat → AttemptOut) :
    ∀ (rem n : Nat) (s : Stats), balanced s → balanced (requestLoop f n rem s).stats
  | 0, n, s, hb => hb
  | rem + 1, n, s, hb => by
    unfold requestLoop
    cases f n with
    | resolved r => exact classifyResolved_balanced s r hb
    | rejected e =>
      have hb1 : balanced ⟨s.requests + 1, s.successful, s.failed + 1, s.encrypted⟩ := by
        unfold balanced at *
        simp
        omega
      by_cases hrem : rem = 0
      · subst hrem
        simpa using hb1
      · simp only [hrem, if_false]
        exact requestLoop_balanced f rem (n + 1) _ hb1

theorem requestLoop_le (f : Nat → AttemptOut) :
    ∀ (rem n : Nat) (s : Stats), statsLE s (requestLoop f n rem s).stats
  | 0, n, s => ⟨le_refl _, le_refl _, le_refl _, le_refl _⟩
  | rem + 1, n, s => by
    unfold requestLoop
    cases f n with
    | resolved r => exact classifyResolved_le s r
    | rejected e =>
      have hle1 : statsLE s ⟨s.requests + 1, s.successful, s.failed + 1, s.encrypted⟩ := by
        unfold statsLE
        simp
      by_cases hrem : rem = 0
      · subst hrem
        exact hle1
      · simp only [hrem, if_false]
        have h2 := requestLoop_le f rem (n + 1)
          ⟨s.requests + 1, s.successful, s.failed + 1, s.encrypted⟩
        exact ⟨le_trans hle1.1 h2.1, le_trans hle1.2.1 h2.2.1,
               le_trans hle1.2.2.1 h2.2.2.1, le_trans hle1.2.2.2 h2.2.2.2⟩

/-- C9: each completed request call preserves the invariant that requests
equals successful plus failed, and never decreases any counter; starting
from the all-zero counters of the constructor, any sequence of completed calls
leaves the invariant holding, and resetStats reinstalls exactly the
all-zero counters (non-negativity is inherent in the Nat-valued model). -/
theorem stats_invariant_spec :
    (∀ (autoRetry : Bool) (f : Nat → AttemptOut) (s : Stats), balanced s →
      balanced (requestRun autoRetry f s).stats)
    ∧ (∀ (autoRetry : Bool) (f : Nat → AttemptOut) (s : Stats),
      statsLE s (requestRun autoRetry f s).stats)
    ∧ (∀ calls : List (Nat → AttemptOut),
      balanced (calls.foldl (fun s g => (requestRun true g s).stats) initialStats))
    ∧ resetStatsValue = initialStats
    ∧ balanced initialStats := by
  have hbal : ∀ (autoRetry : Bool) (f : Nat → AttemptOut) (s : Stats), balanced s →
      balanced (requestRun autoRetry f s).stats :=
    fun autoRetry f s hb => requestLoop_balanced f (maxAttemptsOf autoRetry) 1 s hb
  refine ⟨hbal, fun autoRetry f s => requestLoop_le f (maxAttemptsOf autoRetry) 1 s, ?_, rfl, rfl⟩
  intro calls
  have hgen : ∀ (calls : List (Nat → AttemptOut)) (s : Stats), balanced s →
      balanced (calls.foldl (fun s g => (requestRun true g s).stats) s) := by
    intro calls
    induction calls with
    | nil => exact fun s hb => hb
    | cons g rest ih =>
      intro s hb
      exact ih _ (hbal true g s hb)
  exact hgen calls initialStats rfl

/-- C9 witness: the preservation component applied to balanced counters
2 = 1 + 1 and an always-rejecting transport. -/
theorem stats_invariant_spec_witness :
    balanced ⟨2, 1, 1, 0⟩
    ∧ balanced (requestRun true (fun _ => .rejected "x") ⟨2, 1, 1, 0⟩).stats :=
  ⟨rfl, stats_invariant_spec.1 true (fun _ => .rejected "x") ⟨2, 1, 1, 0⟩ rfl⟩

/-! ### The quantify scheduler and its statistics
(src/api/quantify.js, scheduleExecutions lines 121 to 218 and
getExecutionStats lines 226 to 262)

The remote call this.execute is supplied as a function from the 1-based
iteration number; new Date().toISOString() is supplied as a timestamp
function, and new Date(string) parsing (used only by the statistics) as a
date-parse function.  The run modelled here is one that is never stopped
and has no throwing callbacks, so the loop visits every iteration. -/

/-- One recorded iteration outcome, appended to the results list. -/
structure ExecutionResult where
  iteration : Nat
  timestamp : String
  success : Bool
  result : Option Jv
  error : Option String
deriving Repr

/-- The ExecutionResult recorded for one iteration: the success record on
a resolved call, the error record on a thrown one (both appended
unconditionally; the catch block does not abort the loop). -/
def mkExecutionResult (i : Nat) (ts : String) : Except String Jv → ExecutionResult
  | .ok r => ⟨i, ts, true, some r, none⟩
  | .error e => ⟨i, ts, false, none, some e⟩

/-- The for loop of scheduleExecutions for a run that is never stopped:
every iteration appends exactly one record and the loop continues after a
failure. -/
def scheduleLoop (exec : Nat → Except String Jv) (ts : Nat → String) :
    Nat → Nat → List ExecutionResult
  | _, 0 => []
  | i, remaining + 1 =>
    mkExecutionResult i (ts i) (exec i) :: scheduleLoop exec ts (i + 1) remaining

/-- The results list of a complete unstopped schedule run. -/
def scheduleRun (exec : Nat → Except String Jv) (ts : Nat → String)
    (iterations : Nat) : List ExecutionResult :=
  scheduleLoop exec ts 1 iterations

/-- The aggregate statistics object of getExecutionStats.  Rates are
modelled in exact rational arithmetic. -/
structure ExecStats where
  total : Nat
  successful : Nat
  failed : Nat
  successRate : ℚ
  averageInterval : ℤ
  firstExecution : Option String
  lastExecution : Option String
deriving DecidableEq, Repr

/-- Math.round: half rounds up. -/
def jsRound (x : ℚ) : ℤ := ⌊x + 1 / 2⌋

/-- Millisecond differences between consecutive recorded timestamps. -/
def intervalsMs (dateMs : String → Int) (rs : List ExecutionResult) : List ℚ :=
  (List.zip rs rs.tail).map
    (fun p => ((dateMs p.2.timestamp - dateMs p.1.timestamp : Int) : ℚ))

/-- getExecutionStats: all-zero statistics for a missing or empty results
list (no division happens on that branch), otherwise counts, the
percentage success rate rounded to two decimals, the average of the
actual timestamp gaps in whole seconds, and the first and last recorded
timestamps. -/
def getExecutionStats (dateMs : String → Int)
    (results : Option (List ExecutionResult)) : ExecStats :=
  match results with
  | none => ⟨0, 0, 0, 0, 0, none, none⟩
  | some rs =>
    if rs.length = 0 then ⟨0, 0, 0, 0, 0, none, none⟩
    else
      let successful := (rs.filter (fun r => r.success)).length
      let failed := rs.length - successful
      let successRate : ℚ := (successful : ℚ) / (rs.length : ℚ) * 100
      let avgMs : ℚ :=
        if 1 < rs.length then
          (intervalsMs dateMs rs).sum / ((intervalsMs dateMs rs).length : ℚ)
        else 0
      ⟨rs.length, successful, failed,
       (jsRound (successRate * 100) : ℚ) / 100,
       jsRound (avgMs / 1000),
       rs.head?.map (fun r => r.timestamp),
       rs.getLast?.map (fun r => r.timestamp)⟩

theorem scheduleLoop_length (exec : Nat → Except String Jv) (ts : Nat → String) :
    ∀ (rem i : Nat), (scheduleLoop exec ts i rem).length = rem
  | 0, _ => rfl
  | rem + 1, i => by
    rw [scheduleLoop]
    simp [scheduleLoop_length exec ts rem (i + 1)]

theorem scheduleLoop_get (exec : Nat → Except String Jv) (ts : Nat → String) :
    ∀ (rem i k : Nat), k < rem →
      (scheduleLoop exec ts i rem)[k]?
        = some (mkExecutionResult (i + k) (ts (i + k)) (exec (i + k)))
  | 0, _, k, hk => absurd hk (Nat.not_lt_zero k)
  | rem + 1, i, 0, _ => by
    rw [scheduleLoop]
    simp
  | rem + 1, i, k + 1, hk => by
    rw [scheduleLoop]
    rw [List.getElem?_cons_succ]
    have hrec := scheduleLoop_get exec ts rem (i + 1) k (by omega)
    rw [hrec]
    have hik : i + 1 + k = i + (k + 1) := by omega
    rw [hik]

/-- C7: an unstopped schedule run records exactly one ExecutionResult per
iteration 1..=iterations, in order, regardless of per-iteration failure;
in particular a 3-iteration run whose remote call fails only on iteration
2 ends with three results and getExecutionStats reports failed = 1. -/
theorem scheduleExecutions_spec (exec : Nat → Except String Jv) (ts : Nat → String)
    (dateMs : String → Int) (n : Nat) :
    (scheduleRun exec ts n).length = n
    ∧ (∀ k : Nat, k < n → (scheduleRun exec ts n)[k]?
        = some (mkExecutionResult (k + 1) (ts (k + 1)) (exec (k + 1))))
    ∧ ((∃ r1, exec 1 = .ok r1) → (∃ e2, exec 2 = .error e2) → (∃ r3, exec 3 = .ok r3) →
        (scheduleRun exec ts 3).length = 3
        ∧ (getExecutionStats dateMs (some (scheduleRun exec ts 3))).failed = 1) := by
  refine ⟨scheduleLoop_length exec ts n 1, ?_, ?_⟩
  · intro k hk
    have hg := scheduleLoop_get exec ts n 1 k hk
    unfold scheduleRun
    rw [hg]
    have h1k : 1 + k = k + 1 := by omega
    rw [h1k]
  · rintro ⟨r1, h1⟩ ⟨e2, h2⟩ ⟨r3, h3⟩
    refine ⟨scheduleLoop_length exec ts 3 1, ?_⟩
    simp [scheduleRun, scheduleLoop, mkExecutionResult, h1, h2, h3, getExecutionStats]

/-- C7 witness: the scenario component at a concrete remote call failing
exactly on iteration 2. -/
theorem scheduleExecutions_spec_witness :
    (scheduleRun (fun k => if k = 2 then .error "boom" else .ok (.jnum 7))
        (fun _ => "t") 3).length = 3
    ∧ (getExecutionStats (fun _ => 0)
        (some (scheduleRun (fun k => if k = 2 then .error "boom" else .ok (.jnum 7))
          (fun _ => "t") 3))).failed = 1 :=
  (scheduleExecutions_spec (fun k => if k = 2 then .error "boom" else .ok (.jnum 7))
    (fun _ => "t") (fun _ => 0) 3).2.2 ⟨.jnum 7, rfl⟩ ⟨"boom", rfl⟩ ⟨.jnum 7, rfl⟩

/-- C8: getExecutionStats of a missing or empty results list is exactly
the all-zero statistics object (with no first or last execution fields);
the zero branch performs no division and the embedding is a total
function, so no error can be raised. -/
theorem getExecutionStats_empty (dateMs : String → Int) :
    getExecutionStats dateMs none = ⟨0, 0, 0, 0, 0, none, none⟩
    ∧ getExecutionStats dateMs (some []) = ⟨0, 0, 0, 0, 0, none, none⟩ :=
  ⟨rfl, rfl⟩

/-! ### Copy semantics of the read accessors (C10)

getStats returns a spread copy of this.stats and getResults on the
scheduler handle returns a spread copy of the results array.  Reference versus
copy is made observable with a small object store: allocation appends a
cell, mutation overwrites a cell in place. -/

/-- A store of heap cells. -/
structure Heap (α : Type) where
  cells : List α

/-- Allocate a fresh cell, returning the new store and the new
reference. -/
def halloc (h : Heap α) (a : α) : Heap α × Nat := (⟨h.cells ++ [a]⟩, h.cells.length)

/-- Read a reference. -/
def hread (h : Heap α) (r : Nat) : Option α := h.cells[r]?

/-- Mutate the object behind a reference in place. -/
def hwrite (h : Heap α) (r : Nat) (a : α) : Heap α := ⟨h.cells.set r a⟩

/-- getStats: return a freshly allocated shallow copy of the counters
object held at the internal reference. -/
def getStatsCopy (h : Heap Stats) (internal : Nat) : Heap Stats × Nat :=
  halloc h ((hread h internal).getD initialStats)

/-- getResults on the handle: return a freshly allocated copy of the
results array held at the internal reference. -/
def getResultsCopy (h : Heap (List ExecutionResult)) (internal : Nat) :
    Heap (List ExecutionResult) × Nat :=
  halloc h ((hread h internal).getD [])

theorem halloc_fresh_frame {α : Type} (h : Heap α) (a : α) (internal : Nat)
    (hlt : internal < h.cells.length) :
    (halloc h a).2 ≠ internal
    ∧ hread (halloc h a).1 internal = hread h internal
    ∧ ∀ v, hread (hwrite (halloc h a).1 (halloc h a).2 v) internal = hread h internal := by
  refine ⟨by simp [halloc]; omega, ?_, ?_⟩
  · simp only [halloc, hread]
    rw [List.getElem?_append]
    simp [hlt]
  · intro v
    simp only [halloc, hread, hwrite]
    rw [List.getElem?_set_ne (by omega)]
    rw [List.getElem?_append]
    simp [hlt]

/-- C10: both read accessors return a fresh reference distinct from the
internal one; the copy leaves the internal object readable unchanged, and
any overwrite through the returned reference leaves the internal
statistics object and the internal results array unchanged for all later
reads. -/
theorem read_accessors_copy_spec :
    (∀ (h : Heap Stats) (internal : Nat), internal < h.cells.length →
      (getStatsCopy h internal).2 ≠ internal
      ∧ hread (getStatsCopy h internal).1 internal = hread h internal
      ∧ ∀ v, hread (hwrite (getStatsCopy h internal).1 (getStatsCopy h internal).2 v) internal
          = hread h internal)
    ∧ (∀ (h : Heap (List ExecutionResult)) (internal : Nat), internal < h.cells.length →
      (getResultsCopy h internal).2 ≠ internal
      ∧ hread (getResultsCopy h internal).1 internal = hread h internal
      ∧ ∀ v, hread (hwrite (getResultsCopy h internal).1 (getResultsCopy h internal).2 v) internal
          = hread h internal) :=
  ⟨fun h internal hlt => halloc_fresh_frame h _ internal hlt,
   fun h internal hlt => halloc_fresh_frame h _ internal hlt⟩

/-- C10 witness: a one-cell store holding the counters; overwriting the
copy returned by getStats leaves the internal cell unchanged. -/
theorem read_accessors_copy_spec_witness :
    (0 : Nat) < (Heap.mk [initialStats]).cells.length
    ∧ hread (hwrite (getStatsCopy (Heap.mk [initialStats]) 0).1
        (getStatsCopy (Heap.mk [initialStats]) 0).2 ⟨9, 9, 9, 9⟩) 0
      = hread (Heap.mk [initialStats]) 0 :=
  ⟨by decide,
   (read_accessors_copy_spec.1 (Heap.mk [initialStats]) 0 (by decide)).2.2 ⟨9, 9, 9, 9⟩⟩

end Coinplex
